import Mathlib

/-!
Verification of the Base62 codec and the Snowflake-style identifier
generator of the distributed URL shortener (the base62 and id generator
utility modules).  JavaScript strings are modelled as lists of
characters, JS BigInt and non-negative Number values as Nat, thrown
exceptions as Except error values, and the generator's mutable module
state as an explicit state record threaded through each call.
-/

namespace Shortener

instance {ε α : Type} [DecidableEq ε] [DecidableEq α] :
    DecidableEq (Except ε α) := fun x y =>
  match x, y with
  | .ok a, .ok b =>
    if h : a = b then .isTrue (by rw [h])
    else .isFalse (fun hc => h (Except.ok.inj hc))
  | .error a, .error b =>
    if h : a = b then .isTrue (by rw [h])
    else .isFalse (fun hc => h (Except.error.inj hc))
  | .ok _, .error _ => .isFalse (fun hc => Except.noConfusion hc)
  | .error _, .ok _ => .isFalse (fun hc => Except.noConfusion hc)

/-- The fixed 62-character alphabet of the codec: digits, then lowercase,
then uppercase, exactly as in the source constant BASE62_CHARS. -/
def BASE62_CHARS : List Char :=
  "0123456789abcdefghijklmnopqrstuvwxyzABCDEFGHIJKLMNOPQRSTUVWXYZ".toList

/-- The radix, source constant BASE. -/
def BASE : Nat := 62

/-- Loop of encodeBase62: while n > 0, prepend BASE62_CHARS[n % 62] to the
result and divide n by 62 (integer division). -/
def encodeBase62Go (n : Nat) (result : List Char) : List Char :=
  if h : n = 0 then result
  else encodeBase62Go (n / BASE) (BASE62_CHARS.getD (n % BASE) ' ' :: result)
termination_by n
decreasing_by simp only [BASE]; omega

/-- encodeBase62 from the source: 0 maps to the first alphabet character;
otherwise repeated division by 62, most significant digit first.  The JS
function takes a Number or BigInt; its non-negative domain is a Nat here. -/
def encodeBase62 (num : Nat) : List Char :=
  if num = 0 then [BASE62_CHARS.getD 0 ' '] else encodeBase62Go num []

/-- Loop of String.prototype.indexOf: first index of c in the list,
counting from i; none models the JS result -1. -/
def indexOfGo (c : Char) : List Char → Nat → Option Nat
  | [], _ => none
  | x :: rest, i => if x = c then some i else indexOfGo c rest (i + 1)

/-- BASE62_CHARS.indexOf(char) from decodeBase62. -/
def charIndex (c : Char) : Option Nat := indexOfGo c BASE62_CHARS 0

/-- Loop of decodeBase62: a Horner accumulation num = num * 62 + digit over
the characters, throwing on the first character outside the alphabet.  The
JS error message interpolates exactly the offending character, so the error
value carries that character. -/
def decodeBase62Go : List Char → Nat → Except Char Nat
  | [], num => .ok num
  | c :: rest, num =>
    match charIndex c with
    | none => .error c
    | some i => decodeBase62Go rest (num * BASE + i)

/-- decodeBase62 from the source, starting from the accumulator 0. -/
def decodeBase62 (str : List Char) : Except Char Nat := decodeBase62Go str 0

/-- Number of base62 digits the encode loop emits for n (0 for n = 0). -/
def digitCount (n : Nat) : Nat :=
  if h : n = 0 then 0 else digitCount (n / BASE) + 1
termination_by n
decreasing_by simp only [BASE]; omega

theorem charIndex_getD (k : Nat) (hk : k < 62) :
    charIndex (BASE62_CHARS.getD k ' ') = some k := by
  revert hk
  revert k
  decide

theorem indexOfGo_some_lt (c : Char) :
    ∀ (l : List Char) (i j : Nat), indexOfGo c l i = some j → j < i + l.length := by
  intro l
  induction l with
  | nil => intro i j h; simp [indexOfGo] at h
  | cons x rest ih =>
    intro i j h
    rw [indexOfGo] at h
    by_cases hx : x = c
    · rw [if_pos hx] at h
      injection h with h
      simp [← h]
    · rw [if_neg hx] at h
      have := ih (i + 1) j h
      simp only [List.length_cons]
      omega

theorem charIndex_lt (c : Char) (i : Nat) (h : charIndex c = some i) : i < 62 := by
  have := indexOfGo_some_lt c BASE62_CHARS 0 i h
  simpa [BASE62_CHARS] using this

theorem decode_encodeGo :
    ∀ (n : Nat) (acc : List Char) (num : Nat),
      decodeBase62Go (encodeBase62Go n acc) num =
        decodeBase62Go acc (num * BASE ^ digitCount n + n) := by
  intro n
  induction n using Nat.strong_induction_on with
  | _ n ih =>
    intro acc num
    rw [encodeBase62Go.eq_def, digitCount.eq_def]
    by_cases h : n = 0
    · rw [dif_pos h, dif_pos h, h]
      simp
    · rw [dif_neg h, dif_neg h]
      have hdiv : n / BASE < n := by simp only [BASE]; omega
      rw [ih (n / BASE) hdiv]
      have hmod : n % BASE < 62 := by simp only [BASE]; omega
      simp only [decodeBase62Go, charIndex_getD (n % BASE) hmod]
      have harith : (num * BASE ^ digitCount (n / BASE) + n / BASE) * BASE + n % BASE =
          num * BASE ^ (digitCount (n / BASE) + 1) + n := by
        rw [pow_succ, ← mul_assoc]
        simp only [BASE]
        omega
      rw [harith]

theorem decode_encode (n : Nat) : decodeBase62 (encodeBase62 n) = .ok n := by
  by_cases h : n = 0
  · rw [h]; decide
  · unfold decodeBase62 encodeBase62
    rw [if_neg h, decode_encodeGo]
    simp [decodeBase62Go]

theorem encode_injective (n m : Nat) (h : encodeBase62 n = encodeBase62 m) : n = m := by
  have hn := decode_encode n
  have hm := decode_encode m
  rw [h, hm] at hn
  injection hn with h2
  exact h2.symm

/-- C1: for every non-negative integer n up to 2^64 - 1, decoding the
encoding of n recovers n, and the encoding is injective on that range. -/
theorem c1_codec_roundtrip (n : Nat) (hn : n ≤ 2 ^ 64 - 1) :
    decodeBase62 (encodeBase62 n) = .ok n ∧
    ∀ m : Nat, m ≤ 2 ^ 64 - 1 → encodeBase62 m = encodeBase62 n → m = n :=
  ⟨decode_encode n, fun m _ h => encode_injective m n h⟩

/-- C1 witness: the round trip evaluated at 2^32 - 1. -/
theorem c1_codec_roundtrip_w :
    decodeBase62 (encodeBase62 4294967295) = .ok 4294967295 :=
  (c1_codec_roundtrip 4294967295 (by norm_num)).1

theorem decodeGo_ok :
    ∀ (s : List Char) (num : Nat), (∀ c ∈ s, (charIndex c).isSome) →
      ∃ v, decodeBase62Go s num = .ok v := by
  intro s
  induction s with
  | nil => intro num _; exact ⟨num, rfl⟩
  | cons c rest ih =>
    intro num hall
    have hc : (charIndex c).isSome := hall c (by simp)
    rw [decodeBase62Go]
    cases hci : charIndex c with
    | none => rw [hci] at hc; simp at hc
    | some i =>
      exact ih (num * BASE + i) (fun x hx => hall x (by simp [hx]))

theorem decodeGo_err :
    ∀ (s : List Char) (num : Nat) (c : Char),
      s.find? (fun x => (charIndex x).isNone) = some c →
      decodeBase62Go s num = .error c := by
  intro s
  induction s with
  | nil => intro num c h; simp at h
  | cons x rest ih =>
    intro num c h
    rw [decodeBase62Go]
    cases hci : charIndex x with
    | none =>
      have hx : (fun y => (charIndex y).isNone) x = true := by simp [hci]
      rw [List.find?_cons_of_pos rest hx] at h
      injection h with h
      rw [h]
    | some i =>
      have hx : ¬(fun y => (charIndex y).isNone) x = true := by simp [hci]
      rw [List.find?_cons_of_neg rest hx] at h
      exact ih (num * BASE + i) c h

/-- C6 amended: decode fails exactly on strings containing a character
outside the alphabet, the error carrying the first offending character
(the source error does not include its position). -/
theorem c6_first_bad_char (s : List Char) :
    ((∀ c ∈ s, (charIndex c).isSome) → ∃ v, decodeBase62 s = .ok v) ∧
    (∀ c, s.find? (fun x => (charIndex x).isNone) = some c →
      decodeBase62 s = .error c) :=
  ⟨fun h => decodeGo_ok s 0 h, fun c h => decodeGo_err s 0 c h⟩

/-- C6 witness: a good string decodes, a bad one fails with its first
invalid character. -/
theorem c6_first_bad_char_w :
    (∃ v, decodeBase62 ['a', 'b'] = .ok v) ∧
    decodeBase62 ['a', '!', 'd'] = .error '!' :=
  ⟨(c6_first_bad_char ['a', 'b']).1 (by decide),
   (c6_first_bad_char ['a', '!', 'd']).2 '!' (by decide)⟩

/-- C6 counterexample: the error raised by decode is identical for the
same bad character at different positions, so it cannot identify the
position of the offending character. -/
theorem c6_position_cex :
    decodeBase62 ['!', '0'] = .error '!' ∧
    decodeBase62 ['0', '!'] = .error '!' ∧
    List.findIdx (fun x => (charIndex x).isNone) ['!', '0'] = 0 ∧
    List.findIdx (fun x => (charIndex x).isNone) ['0', '!'] = 1 := by
  decide

theorem encodeGo_length :
    ∀ (n : Nat) (acc : List Char),
      (encodeBase62Go n acc).length = digitCount n + acc.length := by
  intro n
  induction n using Nat.strong_induction_on with
  | _ n ih =>
    intro acc
    rw [encodeBase62Go.eq_def, digitCount.eq_def]
    by_cases h : n = 0
    · rw [dif_pos h, dif_pos h]
      simp
    · rw [dif_neg h, dif_neg h]
      have hdiv : n / BASE < n := by simp only [BASE]; omega
      rw [ih (n / BASE) hdiv]
      simp only [List.length_cons]
      omega

theorem digitCount_pos (n : Nat) (h : n ≠ 0) : digitCount n ≠ 0 := by
  rw [digitCount.eq_def, dif_neg h]
  omega

theorem encodeBase62_ne_nil (n : Nat) : encodeBase62 n ≠ [] := by
  unfold encodeBase62
  by_cases h : n = 0
  · rw [if_pos h]; simp
  · rw [if_neg h]
    intro hnil
    have := encodeGo_length n []
    rw [hnil] at this
    simp at this
    exact digitCount_pos n h this.symm

/-- C7: encoding 0 yields the single first alphabet character (never the
empty string, for any input), and that character decodes back to 0. -/
theorem c7_encode_zero :
    encodeBase62 0 = ['0'] ∧ BASE62_CHARS.getD 0 ' ' = '0' ∧
    (∀ n : Nat, encodeBase62 n ≠ []) ∧ decodeBase62 ['0'] = .ok 0 :=
  ⟨by decide, by decide, encodeBase62_ne_nil, by decide⟩

/-- C7 witness: non-emptiness of the encoding evaluated at 62. -/
theorem c7_encode_zero_w : encodeBase62 62 ≠ [] :=
  c7_encode_zero.2.2.1 62

/-- C9: decoding the empty string returns 0 without raising any error,
although the encoder never produces the empty string. -/
theorem c9_decode_empty :
    decodeBase62 [] = .ok 0 ∧ ∀ n : Nat, encodeBase62 n ≠ [] :=
  ⟨rfl, encodeBase62_ne_nil⟩

/-- C9 witness: non-emptiness of the encoding evaluated at 7. -/
theorem c9_decode_empty_w : encodeBase62 7 ≠ [] :=
  c9_decode_empty.2 7

theorem decodeGo_lt :
    ∀ (s : List Char) (num v : Nat), decodeBase62Go s num = .ok v →
      v < (num + 1) * BASE ^ s.length := by
  intro s
  induction s with
  | nil =>
    intro num v h
    injection h with h
    simp [← h]
  | cons c rest ih =>
    intro num v h
    rw [decodeBase62Go] at h
    cases hci : charIndex c with
    | none => rw [hci] at h; exact absurd h (by simp)
    | some i =>
      rw [hci] at h
      have hi : i < 62 := charIndex_lt c i hci
      have hv := ih (num * BASE + i) v h
      have hle : num * BASE + i + 1 ≤ (num + 1) * BASE := by
        simp only [BASE]; omega
      calc v < (num * BASE + i + 1) * BASE ^ rest.length := hv
        _ ≤ (num + 1) * BASE * BASE ^ rest.length :=
            Nat.mul_le_mul_right _ hle
        _ = (num + 1) * BASE ^ (rest.length + 1) := by ring

theorem digitCount_le :
    ∀ (L v : Nat), v < BASE ^ L → digitCount v ≤ L := by
  intro L
  induction L with
  | zero =>
    intro v hv
    simp at hv
    rw [hv, digitCount.eq_def]
    simp
  | succ L ih =>
    intro v hv
    by_cases h : v = 0
    · rw [h, digitCount.eq_def]; simp
    · rw [digitCount.eq_def, dif_neg h]
      have : v / BASE < BASE ^ L := by
        apply Nat.div_lt_of_lt_mul
        rw [mul_comm, ← pow_succ]
        exact hv
      have := ih (v / BASE) this
      omega

/-- C10: decode is not injective on alphabet strings (a leading zero digit
changes nothing), hence the string-level round trip fails for some alphabet
strings, and when the round trip does hold the string is either the single
zero digit or has no leading zero digit. -/
theorem c10_decode_not_injective :
    (['0'] ≠ ['0', '0'] ∧ decodeBase62 ['0'] = decodeBase62 ['0', '0']) ∧
    (decodeBase62 ['0', '0'] = .ok 0 ∧ encodeBase62 0 ≠ ['0', '0']) ∧
    (∀ (s : List Char) (v : Nat), decodeBase62 s = .ok v → encodeBase62 v = s →
      s = ['0'] ∨ s.head? ≠ some '0') := by
  refine ⟨⟨by decide, by decide⟩, ⟨by decide, by decide⟩, ?_⟩
  intro s v hdec henc
  cases s with
  | nil => right; simp
  | cons c rest =>
    by_cases hc : c = '0'
    · subst hc
      by_cases hr : rest = []
      · left; rw [hr]
      · exfalso
        unfold decodeBase62 at hdec
        simp only [decodeBase62Go, show charIndex '0' = some 0 from by decide,
          Nat.zero_mul, Nat.add_zero] at hdec
        have hv : v < BASE ^ rest.length := by
          have := decodeGo_lt _ _ _ hdec
          simpa using this
        have hdc : digitCount v ≤ rest.length := digitCount_le _ _ hv
        have hlen := congrArg List.length henc
        unfold encodeBase62 at hlen
        have hrl : 1 ≤ rest.length := by
          cases rest with
          | nil => exact absurd rfl hr
          | cons y ys => simp
        by_cases hv0 : v = 0
        · rw [if_pos hv0] at hlen
          simp only [List.length_cons, List.length_nil] at hlen
          omega
        · rw [if_neg hv0] at hlen
          rw [encodeGo_length] at hlen
          simp only [List.length_nil, List.length_cons, Nat.add_zero] at hlen
          omega
    · right
      simp [hc]

theorem encodeBase62_one : encodeBase62 1 = ['1'] := by
  have h0 : encodeBase62Go 0 ['1'] = ['1'] := by
    rw [encodeBase62Go.eq_def]
    simp
  have ha : (1 : Nat) / BASE = 0 := by simp [BASE]
  have hb : BASE62_CHARS.getD (1 % BASE) ' ' = '1' := by decide
  rw [encodeBase62, if_neg one_ne_zero, encodeBase62Go.eq_def, dif_neg one_ne_zero,
    ha, hb, h0]

/-- C10 witness: a string with no leading zero digit satisfies the
round-trip characterization. -/
theorem c10_decode_not_injective_w :
    (['1'] : List Char) = ['0'] ∨ (['1'] : List Char).head? ≠ some '0' :=
  c10_decode_not_injective.2.2 ['1'] 1 (by decide) encodeBase62_one

/-! ## Snowflake-style identifier generator -/

/-- Source constant MACHINE_ID_BITS (10 bits of machine id). -/
def MACHINE_ID_BITS : Nat := 10

/-- Source constant SEQUENCE_BITS (12 bits of sequence). -/
def SEQUENCE_BITS : Nat := 12

/-- Source constant MAX_MACHINE_ID = (1 << MACHINE_ID_BITS) - 1. -/
def MAX_MACHINE_ID : Nat := (1 <<< MACHINE_ID_BITS) - 1

/-- Source constant MAX_SEQUENCE = (1 << SEQUENCE_BITS) - 1. -/
def MAX_SEQUENCE : Nat := (1 <<< SEQUENCE_BITS) - 1

/-- Milliseconds since the Unix epoch of 2020-01-01T00:00:00Z, the source
EPOCH constant computed by new Date at module load. -/
def EPOCH : Nat := 1577836800000

/-- The generator's mutable module state: the sequence counter and the
last timestamp, which is initially -1 and hence an Int. -/
structure GenState where
  sequence : Nat
  lastTimestamp : Int
deriving DecidableEq

/-- Module state at load time: sequence = 0, lastTimestamp = -1. -/
def initState : GenState := ⟨0, -1⟩

/-- Identifier composition inside generateId:
(timestamp << (MACHINE_ID_BITS + SEQUENCE_BITS)) | (machineId << SEQUENCE_BITS) | sequence
on BigInt values, modelled on Nat. -/
def composeId (timestamp machineId seq : Nat) : Nat :=
  (timestamp <<< (MACHINE_ID_BITS + SEQUENCE_BITS)) |||
    (machineId <<< SEQUENCE_BITS) ||| seq

/-- Result record of parseId; date is the millisecond value
timestamp + EPOCH that the source wraps in a Date object. -/
structure ParsedId where
  timestamp : Nat
  machineId : Nat
  sequence : Nat
  date : Nat
deriving DecidableEq

/-- parseId from the source: pure bit-field extraction by shifts and
masks (0x1FFFFFFFFFF masks the 41 timestamp bits). -/
def parseId (id : Nat) : ParsedId :=
  ⟨(id >>> (MACHINE_ID_BITS + SEQUENCE_BITS)) &&& 0x1FFFFFFFFFF,
   (id >>> SEQUENCE_BITS) &&& MAX_MACHINE_ID,
   id &&& MAX_SEQUENCE,
   ((id >>> (MACHINE_ID_BITS + SEQUENCE_BITS)) &&& 0x1FFFFFFFFFF) + EPOCH⟩

/-- waitNextMillis: busy-wait until the clock reading strictly exceeds
lastTimestamp.  The trace lists the successive readings of
Date.now() - EPOCH that the loop observes; none models a wait that never
returns because the finite trace is exhausted before the clock advances. -/
def waitNextMillis (lastTimestamp : Int) : List Nat → Option Nat
  | [] => none
  | t :: rest =>
    if (t : Int) ≤ lastTimestamp then waitNextMillis lastTimestamp rest
    else some t

/-- One call to generateId.  now is the reading Date.now() - EPOCH taken at
entry (the wall clock is assumed at or after the custom epoch, so a Nat);
future lists the readings the busy-wait loop observes on sequence overflow;
machineId is the module constant resolved at startup.  The outer Option
models termination of the busy wait, the inner Except the thrown clock-skew
error, whose payload is the regression magnitude lastTimestamp - timestamp
in milliseconds; on success the new identifier is paired with the updated
module state, and on a throw the state is returned unchanged because the
source throws before any assignment.  The source let-binds
sequence = (sequence + 1) & MAX_SEQUENCE before testing it against 0; the
expression is repeated here instead of let-bound. -/
def generateId (machineId now : Nat) (future : List Nat) (st : GenState) :
    Option (Except Int Nat × GenState) :=
  if (now : Int) < st.lastTimestamp then
    some (.error (st.lastTimestamp - (now : Int)), st)
  else if (now : Int) = st.lastTimestamp then
    if (st.sequence + 1) &&& MAX_SEQUENCE = 0 then
      match waitNextMillis st.lastTimestamp future with
      | none => none
      | some ts => some (.ok (composeId ts machineId 0), ⟨0, (ts : Int)⟩)
    else
      some (.ok (composeId now machineId ((st.sequence + 1) &&& MAX_SEQUENCE)),
            ⟨(st.sequence + 1) &&& MAX_SEQUENCE, (now : Int)⟩)
  else
    some (.ok (composeId now machineId 0), ⟨0, (now : Int)⟩)

/-- A run of successive generateId calls against one generator instance,
one (now, future) clock input per call; yields some (ids, st) exactly when
every call returns successfully. -/
def runOk (machineId : Nat) :
    List (Nat × List Nat) → GenState → Option (List Nat × GenState)
  | [], st => some ([], st)
  | (now, future) :: rest, st =>
    match generateId machineId now future st with
    | some (.ok id, st1) =>
      match runOk machineId rest st1 with
      | some (ids, st2) => some (id :: ids, st2)
      | none => none
    | _ => none

theorem MAX_SEQUENCE_eq : MAX_SEQUENCE = 4095 := by decide

theorem MAX_MACHINE_ID_eq : MAX_MACHINE_ID = 1023 := by decide

theorem shiftLeft_lor_eq_add (a b k : Nat) (hb : b < 2 ^ k) :
    (a <<< k) ||| b = a * 2 ^ k + b := by
  apply Nat.eq_of_testBit_eq
  intro i
  rw [Nat.testBit_lor, Nat.testBit_shiftLeft, mul_comm a, Nat.testBit_mul_pow_two_add a hb i]
  by_cases h : i < k
  · rw [if_pos h]
    have hnk : ¬(i ≥ k) := by omega
    simp [hnk]
  · rw [if_neg h]
    have hik : i ≥ k := by omega
    have hbi : b.testBit i = false :=
      Nat.testBit_eq_false_of_lt
        (lt_of_lt_of_le hb (Nat.pow_le_pow_right (by norm_num) hik))
    simp [hik, hbi]

theorem composeId_eq (t m s : Nat) (hm : m ≤ 1023) (hs : s ≤ 4095) :
    composeId t m s = t * 4194304 + m * 4096 + s := by
  have hp12 : (2 : Nat) ^ 12 = 4096 := by norm_num
  have hp22 : (2 : Nat) ^ (10 + 12) = 4194304 := by norm_num
  unfold composeId
  simp only [MACHINE_ID_BITS, SEQUENCE_BITS]
  rw [Nat.lor_assoc]
  rw [shiftLeft_lor_eq_add m s 12 (by rw [hp12]; omega)]
  rw [shiftLeft_lor_eq_add t (m * 2 ^ 12 + s) (10 + 12) (by rw [hp22, hp12]; omega)]
  rw [hp12, hp22]
  omega

theorem and_4095_eq_mod (x : Nat) : x &&& 4095 = x % 4096 := by
  have h1 : (4095 : Nat) = 2 ^ 12 - 1 := by norm_num
  have h2 : (4096 : Nat) = 2 ^ 12 := by norm_num
  rw [h1, h2, Nat.and_pow_two_sub_one_eq_mod]

theorem and_1023_eq_mod (x : Nat) : x &&& 1023 = x % 1024 := by
  have h1 : (1023 : Nat) = 2 ^ 10 - 1 := by norm_num
  have h2 : (1024 : Nat) = 2 ^ 10 := by norm_num
  rw [h1, h2, Nat.and_pow_two_sub_one_eq_mod]

theorem and_mask41_eq_mod (x : Nat) : x &&& 0x1FFFFFFFFFF = x % 2199023255552 := by
  have h1 : (0x1FFFFFFFFFF : Nat) = 2 ^ 41 - 1 := by norm_num
  have h2 : (2199023255552 : Nat) = 2 ^ 41 := by norm_num
  rw [h1, h2, Nat.and_pow_two_sub_one_eq_mod]

theorem parse_compose (t m s : Nat) (ht : t < 2199023255552) (hm : m ≤ 1023)
    (hs : s ≤ 4095) : parseId (composeId t m s) = ⟨t, m, s, t + EPOCH⟩ := by
  have hp12 : (2 : Nat) ^ 12 = 4096 := by norm_num
  have hp22 : (2 : Nat) ^ (10 + 12) = 4194304 := by norm_num
  rw [composeId_eq t m s hm hs]
  unfold parseId
  simp only [MACHINE_ID_BITS, SEQUENCE_BITS, MAX_MACHINE_ID_eq, MAX_SEQUENCE_eq, EPOCH,
    Nat.shiftRight_eq_div_pow, and_4095_eq_mod, and_1023_eq_mod, and_mask41_eq_mod,
    hp12, hp22, ParsedId.mk.injEq]
  omega

theorem composeId_lt (a b s u m : Nat) (hm : m ≤ 1023) (hs : s ≤ 4095) (hu : u ≤ 4095)
    (h : a * 4096 + s < b * 4096 + u) :
    composeId a m s < composeId b m u := by
  rw [composeId_eq a m s hm hs, composeId_eq b m u hm hu]
  omega

theorem waitNextMillis_gt (L : Int) :
    ∀ (trace : List Nat) (t : Nat), waitNextMillis L trace = some t → L < (t : Int) := by
  intro trace
  induction trace with
  | nil =>
    intro t h
    exact absurd h (by simp [waitNextMillis])
  | cons x rest ih =>
    intro t h
    rw [waitNextMillis] at h
    by_cases hx : (x : Int) ≤ L
    · rw [if_pos hx] at h
      exact ih t h
    · rw [if_neg hx] at h
      injection h with h2
      rw [← h2]
      omega

/-- Every successful generateId call keeps the sequence within its 12-bit
bound, leaves a non-negative lastTimestamp, strictly increases the pair
(lastTimestamp, sequence) ordered lexicographically (encoded as
lastTimestamp * 4096 + sequence), and returns the identifier composed from
the updated state. -/
theorem generateId_ok_key (m now : Nat) (future : List Nat) (st st1 : GenState)
    (id : Nat) (hseq : st.sequence ≤ 4095)
    (h : generateId m now future st = some (.ok id, st1)) :
    st1.sequence ≤ 4095 ∧ 0 ≤ st1.lastTimestamp ∧
    st.lastTimestamp * 4096 + (st.sequence : Int) <
      st1.lastTimestamp * 4096 + (st1.sequence : Int) ∧
    id = composeId st1.lastTimestamp.toNat m st1.sequence := by
  have hand : (st.sequence + 1) &&& MAX_SEQUENCE = (st.sequence + 1) % 4096 := by
    rw [MAX_SEQUENCE_eq, and_4095_eq_mod]
  unfold generateId at h
  rw [hand] at h
  by_cases h1 : (now : Int) < st.lastTimestamp
  · rw [if_pos h1] at h
    simp at h
  · rw [if_neg h1] at h
    by_cases h2 : (now : Int) = st.lastTimestamp
    · rw [if_pos h2] at h
      by_cases h3 : (st.sequence + 1) % 4096 = 0
      · rw [if_pos h3] at h
        cases hw : waitNextMillis st.lastTimestamp future with
        | none =>
          rw [hw] at h
          simp at h
        | some ts =>
          rw [hw] at h
          simp only [Option.some.injEq, Prod.mk.injEq, Except.ok.injEq] at h
          obtain ⟨hid, hst⟩ := h
          have hgt := waitNextMillis_gt st.lastTimestamp future ts hw
          have hseq1 : st1.sequence = 0 := by rw [← hst]
          have hts1 : st1.lastTimestamp = (ts : Int) := by rw [← hst]
          refine ⟨by rw [hseq1]; omega, by rw [hts1]; omega, ?_, ?_⟩
          · rw [hts1, hseq1]
            omega
          · rw [hts1, hseq1, Int.toNat_natCast]
            exact hid.symm
      · rw [if_neg h3] at h
        simp only [Option.some.injEq, Prod.mk.injEq, Except.ok.injEq] at h
        obtain ⟨hid, hst⟩ := h
        have hseq1 : st1.sequence = (st.sequence + 1) % 4096 := by rw [← hst]
        have hts1 : st1.lastTimestamp = (now : Int) := by rw [← hst]
        refine ⟨by rw [hseq1]; omega, by rw [hts1]; omega, ?_, ?_⟩
        · rw [hts1, hseq1, ← h2]
          omega
        · rw [hts1, hseq1, Int.toNat_natCast]
          exact hid.symm
    · rw [if_neg h2] at h
      simp only [Option.some.injEq, Prod.mk.injEq, Except.ok.injEq] at h
      obtain ⟨hid, hst⟩ := h
      have hseq1 : st1.sequence = 0 := by rw [← hst]
      have hts1 : st1.lastTimestamp = (now : Int) := by rw [← hst]
      refine ⟨by rw [hseq1]; omega, by rw [hts1]; omega, ?_, ?_⟩
      · rw [hts1, hseq1]
        omega
      · rw [hts1, hseq1, Int.toNat_natCast]
        exact hid.symm

/-- Unfolding of runOk on a cons input once the head call is known to
succeed. -/
theorem runOk_cons_ok (m now : Nat) (future : List Nat)
    (rest : List (Nat × List Nat)) (st stA : GenState) (id0 : Nat)
    (hg : generateId m now future st = some (.ok id0, stA)) :
    runOk m ((now, future) :: rest) st =
      match runOk m rest stA with
      | some (ids, st3) => some (id0 :: ids, st3)
      | none => none := by
  rw [runOk, hg]

/-- Along any successful run the identifiers form a strictly increasing
chain, and every identifier is the composition of a state key strictly
above the starting state's key. -/
theorem runOk_chain (m : Nat) (hm : m ≤ 1023) :
    ∀ (inputs : List (Nat × List Nat)) (st : GenState) (ids : List Nat)
      (st2 : GenState), st.sequence ≤ 4095 →
      runOk m inputs st = some (ids, st2) →
      List.Chain' (· < ·) ids ∧
      ∀ id ∈ ids, ∃ a s : Nat, id = composeId a m s ∧ s ≤ 4095 ∧
        st.lastTimestamp * 4096 + (st.sequence : Int) <
          (a : Int) * 4096 + (s : Int) := by
  intro inputs
  induction inputs with
  | nil =>
    intro st ids st2 hseq h
    rw [runOk] at h
    simp only [Option.some.injEq, Prod.mk.injEq] at h
    obtain ⟨h1, _⟩ := h
    subst h1
    exact ⟨List.chain'_nil, by simp⟩
  | cons p rest ih =>
    obtain ⟨now, future⟩ := p
    intro st ids st2 hseq h
    rw [runOk] at h
    cases hg : generateId m now future st with
    | none =>
      rw [hg] at h
      simp at h
    | some r =>
      obtain ⟨res, stA⟩ := r
      cases res with
      | error e =>
        rw [hg] at h
        simp at h
      | ok id0 =>
        have h2 : (match runOk m rest stA with
            | some (ids, st3) => some (id0 :: ids, st3)
            | none => none) = some (ids, st2) := by
          rw [← runOk_cons_ok m now future rest st stA id0 hg, runOk]
          exact h
        clear h
        cases hr : runOk m rest stA with
        | none =>
          rw [hr] at h2
          simp at h2
        | some q =>
          obtain ⟨ids1, st3⟩ := q
          rw [hr] at h2
          simp only [Option.some.injEq, Prod.mk.injEq] at h2
          obtain ⟨hids, hst⟩ := h2
          obtain ⟨hsA, hnnA, hltA, hidA⟩ :=
            generateId_ok_key m now future st stA id0 hseq hg
          obtain ⟨hchain, hbound⟩ := ih stA ids1 st3 hsA hr
          subst hids
          constructor
          · rw [List.chain'_cons']
            refine ⟨?_, hchain⟩
            intro y hy
            obtain ⟨a, s, hya, hs, hygt⟩ := hbound y (List.mem_of_mem_head? hy)
            rw [hidA, hya]
            apply composeId_lt _ _ _ _ m hm hsA hs
            omega
          · intro z hz
            rcases List.mem_cons.mp hz with hz1 | hz2
            · refine ⟨stA.lastTimestamp.toNat, stA.sequence, ?_, hsA, ?_⟩
              · rw [hz1, hidA]
              · omega
            · obtain ⟨a, s, hza, hs, hzgt⟩ := hbound z hz2
              exact ⟨a, s, hza, hs, by omega⟩

/-- C2: along any run of successful generateId calls from one generator
instance, the returned identifiers strictly increase call over call and
hence are pairwise distinct. -/
theorem c2_run_distinct (m : Nat) (hm : m ≤ 1023) (inputs : List (Nat × List Nat))
    (ids : List Nat) (st2 : GenState)
    (h : runOk m inputs initState = some (ids, st2)) :
    List.Chain' (· < ·) ids ∧ List.Pairwise (· ≠ ·) ids := by
  have hc := (runOk_chain m hm inputs initState ids st2 (by decide) h).1
  refine ⟨hc, ?_⟩
  have hp : List.Pairwise (· < ·) ids := List.chain'_iff_pairwise.mp hc
  exact hp.imp (fun hab => Nat.ne_of_lt hab)

/-- C2 witness: a concrete two-call run within one millisecond. -/
theorem c2_run_distinct_w :
    List.Chain' (· < ·) [20971520, 20971521] ∧
    List.Pairwise (· ≠ ·) [20971520, 20971521] :=
  c2_run_distinct 0 (by omega) [(5, []), (5, [])] [20971520, 20971521]
    ⟨1, (5 : Int)⟩ (by decide)

/-- C3: whenever the clock reading is strictly earlier than lastTimestamp,
generateId throws an error carrying the regression magnitude
lastTimestamp - timestamp in milliseconds and leaves the state (both
lastTimestamp and sequence) unchanged. -/
theorem c3_clock_skew (m now : Nat) (future : List Nat) (st : GenState)
    (h : (now : Int) < st.lastTimestamp) :
    generateId m now future st =
      some (.error (st.lastTimestamp - (now : Int)), st) := by
  unfold generateId
  rw [if_pos h]

/-- C3 witness: a regression of 2 milliseconds at a concrete state. -/
theorem c3_clock_skew_w :
    generateId 0 3 [] ⟨2, (5 : Int)⟩ =
      some (.error ((5 : Int) - ((3 : Nat) : Int)), ⟨2, (5 : Int)⟩) :=
  c3_clock_skew 0 3 [] ⟨2, (5 : Int)⟩ (by decide)

theorem genId_step_eq (m now : Nat) (future : List Nat) (st : GenState)
    (h2 : (now : Int) = st.lastTimestamp)
    (h3 : (st.sequence + 1) &&& MAX_SEQUENCE ≠ 0) :
    generateId m now future st =
      some (.ok (composeId now m ((st.sequence + 1) % 4096)),
            ⟨(st.sequence + 1) % 4096, (now : Int)⟩) := by
  have hand : (st.sequence + 1) &&& MAX_SEQUENCE = (st.sequence + 1) % 4096 := by
    rw [MAX_SEQUENCE_eq, and_4095_eq_mod]
  rw [hand] at h3
  unfold generateId
  rw [hand, if_neg (by omega), if_pos h2, if_neg h3]

theorem genId_wrap_eq (m now ts : Nat) (future : List Nat) (st : GenState)
    (h2 : (now : Int) = st.lastTimestamp)
    (h3 : (st.sequence + 1) &&& MAX_SEQUENCE = 0)
    (hw : waitNextMillis st.lastTimestamp future = some ts) :
    generateId m now future st =
      some (.ok (composeId ts m 0), ⟨0, (ts : Int)⟩) := by
  unfold generateId
  rw [if_neg (by omega), if_pos h2, if_pos h3, hw]

theorem genId_new_ms (m now : Nat) (future : List Nat) (st : GenState)
    (hgt : st.lastTimestamp < (now : Int)) :
    generateId m now future st =
      some (.ok (composeId now m 0), ⟨0, (now : Int)⟩) := by
  unfold generateId
  rw [if_neg (by omega), if_neg (by omega)]

/-- With the clock held at t and one later reading available to the
busy-wait, a run from a state that has already minted sequence j at t
produces the remaining same-millisecond identifiers and then the
overflow identifier at the later reading. -/
theorem runFixed (m t later : Nat) (hlt : t < later) :
    ∀ (k j : Nat), j + k = 4096 → j ≤ 4095 →
      runOk m (List.replicate k (t, [later])) ⟨j, (t : Int)⟩ =
        some ((List.range k).map
          (fun i => if j + i < 4095 then composeId t m (j + i + 1)
                    else composeId later m 0),
          ⟨0, (later : Int)⟩) := by
  intro k
  induction k with
  | zero =>
    intro j hj hj2
    omega
  | succ k ih =>
    intro j hj hj2
    by_cases hj4 : j = 4095
    · subst hj4
      have hk0 : k = 0 := by omega
      subst hk0
      have hw : waitNextMillis ((t : Nat) : Int) [later] = some later := by
        rw [waitNextMillis, if_neg (by omega)]
      have hg := genId_wrap_eq m t later [later] ⟨4095, (t : Int)⟩ rfl
        (by show (4095 + 1) &&& MAX_SEQUENCE = 0; decide) hw
      rw [List.replicate_succ, List.replicate_zero,
        runOk_cons_ok m t [later] [] ⟨4095, (t : Int)⟩ ⟨0, (later : Int)⟩
          (composeId later m 0) hg]
      show some ([composeId later m 0], (⟨0, (later : Int)⟩ : GenState)) =
        some ([if 4095 + 0 < 4095 then composeId t m (4095 + 0 + 1)
               else composeId later m 0], ⟨0, (later : Int)⟩)
      norm_num
    · have hj5 : j < 4095 := by omega
      have h3 : ((⟨j, (t : Int)⟩ : GenState).sequence + 1) &&& MAX_SEQUENCE ≠ 0 := by
        show (j + 1) &&& MAX_SEQUENCE ≠ 0
        rw [MAX_SEQUENCE_eq, and_4095_eq_mod]
        omega
      have hg := genId_step_eq m t [later] ⟨j, (t : Int)⟩ rfl h3
      have hmod : ((⟨j, (t : Int)⟩ : GenState).sequence + 1) % 4096 = j + 1 := by
        show (j + 1) % 4096 = j + 1
        omega
      rw [hmod] at hg
      rw [List.replicate_succ,
        runOk_cons_ok m t [later] (List.replicate k (t, [later])) ⟨j, (t : Int)⟩
          ⟨j + 1, (t : Int)⟩ (composeId t m (j + 1)) hg,
        ih (j + 1) (by omega) (by omega)]
      show some (composeId t m (j + 1) :: (List.range k).map
          (fun i => if j + 1 + i < 4095 then composeId t m (j + 1 + i + 1)
                    else composeId later m 0), (⟨0, (later : Int)⟩ : GenState)) =
        some ((List.range (k + 1)).map
          (fun i => if j + i < 4095 then composeId t m (j + i + 1)
                    else composeId later m 0), ⟨0, (later : Int)⟩)
      simp only [Option.some.injEq, Prod.mk.injEq, and_true]
      rw [List.range_succ_eq_map, List.map_cons, List.map_map]
      congr 1
      · rw [if_pos (by omega : j + 0 < 4095)]
      · apply List.map_congr_left
        intro i _
        simp only [Function.comp_apply, Nat.succ_eq_add_one]
        by_cases hc : j + 1 + i < 4095
        · rw [if_pos hc, if_pos (by omega : j + (i + 1) < 4095)]
          congr 1
          omega
        · rw [if_neg hc, if_neg (by omega : ¬(j + (i + 1) < 4095))]

/-- C4: when the clock reading equals lastTimestamp the generator
increments the sequence modulo 4096; when the increment wraps to 0 it
waits for a strictly greater clock reading and proceeds as a new
millisecond with sequence 0; hence with the clock held fixed at t, a run
of 4097 calls from the fresh instance yields parse(id).sequence values
0, 1, ..., 4095 at timestamp t followed by one identifier at the strictly
greater waited timestamp with sequence 0. -/
theorem c4_sequence_cycle (m t later : Nat) (hm : m ≤ 1023)
    (ht : t < 2199023255552) (hl : later < 2199023255552) (hlt : t < later) :
    (∀ (st : GenState) (now : Nat) (future : List Nat),
        (now : Int) = st.lastTimestamp →
        (st.sequence + 1) &&& MAX_SEQUENCE ≠ 0 →
        generateId m now future st =
          some (.ok (composeId now m ((st.sequence + 1) % 4096)),
                ⟨(st.sequence + 1) % 4096, (now : Int)⟩)) ∧
    (∀ (st : GenState) (now ts : Nat) (future : List Nat),
        (now : Int) = st.lastTimestamp →
        (st.sequence + 1) &&& MAX_SEQUENCE = 0 →
        waitNextMillis st.lastTimestamp future = some ts →
        st.lastTimestamp < (ts : Int) ∧
        generateId m now future st =
          some (.ok (composeId ts m 0), ⟨0, (ts : Int)⟩)) ∧
    (∃ (ids : List Nat) (st2 : GenState),
        runOk m (List.replicate 4097 (t, [later])) initState = some (ids, st2) ∧
        ids.length = 4097 ∧ st2 = ⟨0, (later : Int)⟩ ∧
        ids.map parseId = (List.range 4097).map
          (fun i => if i ≤ 4095 then (⟨t, m, i, t + EPOCH⟩ : ParsedId)
                    else ⟨later, m, 0, later + EPOCH⟩)) := by
  refine ⟨fun st now future h2 h3 => genId_step_eq m now future st h2 h3,
    fun st now ts future h2 h3 hw =>
      ⟨waitNextMillis_gt st.lastTimestamp future ts hw,
       genId_wrap_eq m now ts future st h2 h3 hw⟩, ?_⟩
  have hfirst : generateId m t [later] initState =
      some (.ok (composeId t m 0), ⟨0, (t : Int)⟩) :=
    genId_new_ms m t [later] initState (by show (-1 : Int) < (t : Int); omega)
  have hrest := runFixed m t later hlt 4096 0 (by omega) (by omega)
  refine ⟨composeId t m 0 :: (List.range 4096).map
      (fun i => if 0 + i < 4095 then composeId t m (0 + i + 1)
                else composeId later m 0),
    ⟨0, (later : Int)⟩, ?_, ?_, rfl, ?_⟩
  · rw [show (4097 : Nat) = 4096 + 1 from rfl, List.replicate_succ,
      runOk_cons_ok m t [later] (List.replicate 4096 (t, [later])) initState
        ⟨0, (t : Int)⟩ (composeId t m 0) hfirst,
      hrest]
  · simp
  · conv_rhs => rw [show (4097 : Nat) = 4096 + 1 from rfl, List.range_succ_eq_map,
      List.map_cons, List.map_map]
    conv_lhs => rw [List.map_cons, List.map_map]
    rw [List.cons_eq_cons]
    refine ⟨?_, ?_⟩
    · show parseId (composeId t m 0) =
        if (0 : Nat) ≤ 4095 then (⟨t, m, 0, t + EPOCH⟩ : ParsedId)
        else ⟨later, m, 0, later + EPOCH⟩
      rw [if_pos (by omega : (0 : Nat) ≤ 4095)]
      exact parse_compose t m 0 ht hm (by omega)
    · apply List.map_congr_left
      intro i hi
      have hi4 : i < 4096 := List.mem_range.mp hi
      simp only [Function.comp_apply, Nat.succ_eq_add_one, Nat.zero_add]
      by_cases hc : i < 4095
      · rw [if_pos hc, if_pos (by omega : i + 1 ≤ 4095)]
        exact parse_compose t m (i + 1) ht hm (by omega)
      · rw [if_neg hc, if_neg (by omega : ¬(i + 1 ≤ 4095))]
        exact parse_compose later m 0 hl hm (by omega)

/-- C4 witness: the same-millisecond increment applied at a concrete
state with sequence 3 held at clock reading 5. -/
theorem c4_sequence_cycle_w :
    generateId 0 5 [] ⟨3, (5 : Int)⟩ =
      some (.ok (composeId 5 0 ((3 + 1) % 4096)), ⟨(3 + 1) % 4096, ((5 : Nat) : Int)⟩) :=
  (c4_sequence_cycle 0 1 2 (by omega) (by omega) (by omega) (by omega)).1
    ⟨3, (5 : Int)⟩ 5 [] rfl (by decide)

/-- C5: parseId exactly inverts the identifier composition on in-range
fields (the date field being the timestamp shifted back to the epoch);
for a fixed nodeId two composed identifiers agree iff their timestamp and
sequence agree, and identifiers composed with distinct nodeIds are always
distinct. -/
theorem c5_parse_compose (t m s : Nat) (ht : t < 2 ^ 41) (hm : m ≤ 1023)
    (hs : s ≤ 4095) :
    parseId (composeId t m s) = ⟨t, m, s, t + EPOCH⟩ ∧
    (∀ t2 s2 : Nat, t2 < 2 ^ 41 → s2 ≤ 4095 →
      (composeId t m s = composeId t2 m s2 ↔ (t = t2 ∧ s = s2))) ∧
    (∀ t2 m2 s2 : Nat, t2 < 2 ^ 41 → m2 ≤ 1023 → s2 ≤ 4095 → m ≠ m2 →
      composeId t m s ≠ composeId t2 m2 s2) := by
  have hpow : (2 : Nat) ^ 41 = 2199023255552 := by norm_num
  rw [hpow] at ht
  refine ⟨parse_compose t m s ht hm hs, ?_, ?_⟩
  · intro t2 s2 ht2 hs2
    rw [hpow] at ht2
    constructor
    · intro he
      have h1 := parse_compose t m s ht hm hs
      have h2 := parse_compose t2 m s2 ht2 hm hs2
      rw [he, h2] at h1
      injection h1 with e1 e2 e3 e4
      exact ⟨e1.symm, e3.symm⟩
    · intro he
      rw [he.1, he.2]
  · intro t2 m2 s2 ht2 hm2 hs2 hne he
    rw [hpow] at ht2
    have h1 := parse_compose t m s ht hm hs
    have h2 := parse_compose t2 m2 s2 ht2 hm2 hs2
    rw [he, h2] at h1
    injection h1 with e1 e2 e3 e4
    exact hne e2.symm

/-- C5 witness: parse of a composed identifier at concrete field values. -/
theorem c5_parse_compose_w :
    parseId (composeId 7 3 11) = ⟨7, 3, 11, 7 + EPOCH⟩ :=
  (c5_parse_compose 7 3 11 (by norm_num) (by norm_num) (by norm_num)).1

/-! ## Machine id resolution -/

/-- Digit value of a decimal character, as consumed by parseInt with
radix 10. -/
def digitVal (c : Char) : Option Nat :=
  if '0' ≤ c ∧ c ≤ '9' then some (c.toNat - '0'.toNat) else none

/-- Longest leading run of decimal digits, accumulated left to right;
none when no digit at all was consumed, which is the NaN case of
parseInt. -/
def parseDigits : List Char → Option Nat → Option Nat
  | [], acc => acc
  | c :: rest, acc =>
    match digitVal c with
    | some d => parseDigits rest (some (acc.getD 0 * 10 + d))
    | none => acc

/-- JS parseInt(s, 10): skip leading whitespace, take an optional sign,
then the longest decimal-digit prefix; none models the NaN result.  Only
the plain space character is treated as whitespace here. -/
def jsParseInt (s : List Char) : Option Int :=
  match s.dropWhile (fun c => c = ' ') with
  | '-' :: rest => (parseDigits rest none).map (fun n => -(n : Int))
  | '+' :: rest => (parseDigits rest none).map (fun n => (n : Int))
  | t => (parseDigits t none).map (fun n => (n : Int))

/-- JS ToInt32: wrap an exact integer into the signed 32-bit range. -/
def toInt32 (n : Int) : Int := (n + 2 ^ 31) % 2 ^ 32 - 2 ^ 31

/-- The hostname hash loop of getMachineId:
hash = ((hash << 5) - hash) + charCode, where the JS << wraps its result
to a signed 32-bit integer and hash = hash & hash coerces the sum to a
signed 32-bit integer after every step.  Characters stand for UTF-16
code units (hostnames are ASCII). -/
def hostnameHash (hostname : List Char) : Int :=
  hostname.foldl
    (fun hash c => toInt32 (toInt32 (hash * 32) - hash + (c.toNat : Int))) 0

/-- getMachineId from the source.  env models process.env.MACHINE_ID
(none when the variable is unset) and hostname models os.hostname().
The result .error models the thrown range error (the source interpolates
MAX_MACHINE_ID = 1023 into the message); .ok none models the function
returning NaN: a MACHINE_ID with no integer prefix parses to NaN, NaN
fails both comparisons of the range check (NaN < 0 and NaN > 1023 are
both false in JS), and NaN is returned; .ok (some v) models returning
the integer v.  When the variable is unset, Math.abs of the hostname
hash is Int.natAbs (for hash = -2^31 JS coerces Math.abs(hash) = 2^31
back to -2^31 before the &, whose low ten bits are the same 0), and the
& MAX_MACHINE_ID mask keeps the low ten bits. -/
def getMachineId (env : Option (List Char)) (hostname : List Char) :
    Except (List Char) (Option Int) :=
  match env with
  | some s =>
    match jsParseInt s with
    | none => .ok none
    | some id =>
      if id < 0 ∨ id > (MAX_MACHINE_ID : Int) then
        .error ("MACHINE_ID must be between 0 and 1023".toList)
      else .ok (some id)
  | none =>
    .ok (some (((hostnameHash hostname).natAbs &&& MAX_MACHINE_ID : Nat) : Int))

/-- The hostname-hash fallback always yields an integer in [0, 1023]. -/
theorem getMachineId_hash_range (hostname : List Char) :
    ∃ v : Int, getMachineId none hostname = .ok (some v) ∧ 0 ≤ v ∧ v ≤ 1023 := by
  refine ⟨(((hostnameHash hostname).natAbs &&& MAX_MACHINE_ID : Nat) : Int),
    rfl, by positivity, ?_⟩
  have hb : (hostnameHash hostname).natAbs &&& MAX_MACHINE_ID ≤ 1023 := by
    rw [MAX_MACHINE_ID_eq, and_1023_eq_mod]
    omega
  exact_mod_cast hb

/-- C8 at the failing input: with MACHINE_ID set to the non-numeric
string abc, parseInt yields NaN, NaN passes the range check unrejected,
and getMachineId returns NaN (modelled .ok none) instead of an in-range
integer or an error. -/
theorem c8_nan_machine_id :
    getMachineId (some ['a', 'b', 'c']) ['h', 'o', 's', 't'] = .ok none ∧
    jsParseInt ['a', 'b', 'c'] = none :=
  ⟨rfl, rfl⟩

end Shortener
